import Mathlib

/-!
# Verification of the portfolio timeline layout engine

Shallow embedding of the timeline layout engine of the portfolio
repository (the `Timeline` component and its helpers: `parseDate`,
`parseDateForBounds`, `isFutureDate`, `getMonthsDuration`,
`assignColumnsWithLayout`, `getScaleForMonth`, `getPixelOffsetForMonth`,
`getItemStyle`, plus the timeline-bounds computation).

Modelling conventions:
* A JS `Date` is modelled by the absolute month index `year * 12 + month`
  (what `getFullYear`/`getMonth` expose, after the constructor's overflow
  normalisation) together with the fractional position inside that month,
  which is what `getTime()` adds on top for the "now" date.  `new
  Date(year, month)` has fraction 0; `new Date()` has some fraction in
  `[0, 1)`.
* JS numbers reached by the engine on well-formed input are exact
  integers or small fractions, so they are modelled by `ℚ`.
* `Array.prototype.sort` with the numeric comparator is a stable
  ascending sort (ES2019), modelled by `List.insertionSort` with a
  reflexive-total key order, which is stable.
* A JS `Map` built by insertion is modelled by the association list in
  insertion order.
* The NaN behaviour of malformed date strings is modelled separately
  (`JSNum` below) with explicit NaN propagation, mirroring JS number
  semantics.
-/

/-- A JS `Date` as the engine observes it: absolute month index
(`getFullYear () * 12 + getMonth ()`) plus the fractional position of the
instant inside that month (`getTime` refines the month order by this
fraction). Concrete `new Date(year, month)` values have `frac = 0`;
the current moment `new Date()` has `0 ≤ frac < 1`. -/
structure JSDate where
  month : Int
  frac : ℚ
deriving DecidableEq, Repr

/-- `getTime ()` up to a monotone rescaling: month index plus in-month fraction. -/
def timeVal (d : JSDate) : ℚ := (d.month : ℚ) + d.frac

/-- Well-formed date strings of the resume data: `"present"`, `"future"`,
or a concrete `"YYYY-MM"` (whose numeric fields may be any integers; the JS
`Date` constructor normalises month overflow, which the absolute month
index `y * 12 + (m - 1)` reproduces). -/
inductive DateStr where
  | present
  | future
  | ym (year month : Int)
deriving DecidableEq, Repr

/-- Source `parseDate`: sentinels resolve to the current moment, a concrete
`"YYYY-MM"` to the first instant of that month. -/
def parseDate (now : JSDate) : DateStr → JSDate
  | .present => now
  | .future => now
  | .ym y m => ⟨y * 12 + (m - 1), 0⟩

/-- Source `parseDateForBounds`: like `parseDate` but `"future"` resolves to
the current moment plus six months (`setMonth (getMonth () + 6)` keeps the
in-month position). -/
def parseDateForBounds (now : JSDate) : DateStr → JSDate
  | .present => now
  | .future => ⟨now.month + 6, now.frac⟩
  | .ym y m => ⟨y * 12 + (m - 1), 0⟩

/-- Source `isFutureDate`: `"present"` is not future, `"future"` is, and a
concrete date is future when its bounds-resolution is strictly after now. -/
def isFutureDate (now : JSDate) : DateStr → Bool
  | .present => false
  | .future => true
  | .ym y m => decide (timeVal now < timeVal (parseDateForBounds now (.ym y m)))

/-- Source `getMonthsDuration`: whole-month difference between the
bounds-resolved end and the resolved start, clamped below by one. -/
def getMonthsDuration (now : JSDate) (startDate endDate : DateStr) : Int :=
  max 1 ((parseDateForBounds now endDate).month - (parseDate now startDate).month)

/-- Source constant `DEFAULT_PIXELS_PER_MONTH`. -/
def DEFAULT_PIXELS_PER_MONTH : ℚ := 16

/-- Source constant `MIN_ITEM_HEIGHT`. -/
def MIN_ITEM_HEIGHT : ℚ := 60

/-- One resume entry.  The layout engine reads only `id`, `startDate` and
`endDate`; the remaining fields are opaque display data. -/
structure ResumeItem where
  id : String
  category : String
  title : String
  organization : String
  location : String
  startDate : DateStr
  endDate : DateStr
  description : String
  highlights : List String
deriving DecidableEq, Repr

/-- Source `ZoomZone`: an inclusive year range with a scale multiplier. -/
structure ZoomZone where
  startYear : Int
  endYear : Int
  multiplier : ℚ
deriving DecidableEq, Repr

/-- Source `ItemLayout`.  `localColumnOffset` is an `Int` because the source
computes it with `Array.prototype.indexOf`, which can return `-1`. -/
structure ItemLayout where
  column : Nat
  localColumnCount : Nat
  localColumnOffset : Int
deriving DecidableEq, Repr

/-- The per-item record pushed onto `itemBounds` in the first pass of
`assignColumnsWithLayout` (the source field `end` is a Lean keyword and is
called `stop` here). -/
structure ItemBounds where
  id : String
  start : ℚ
  stop : ℚ
  column : Nat
deriving DecidableEq, Repr

instance : Inhabited ItemBounds := ⟨⟨"", 0, 0, 0⟩⟩

/-- The sort key of the first pass: `parseDate(item.startDate).getTime()`. -/
def startSortKey (now : JSDate) (it : ResumeItem) : ℚ :=
  timeVal (parseDate now it.startDate)

/-- `[...items].sort((a, b) => parseDate(a.startDate).getTime() -
parseDate(b.startDate).getTime())`: a stable ascending sort by start time,
modelled by the stable `insertionSort`. -/
def sortedItems (now : JSDate) (items : List ResumeItem) : List ResumeItem :=
  List.insertionSort (fun a b => startSortKey now a ≤ startSortKey now b) items

/-- `itemStartMonths`: start offset of an item in months from `minDate`. -/
def itemStartMonths (now : JSDate) (minDateMonth : Int) (it : ResumeItem) : ℚ :=
  (((parseDate now it.startDate).month - minDateMonth : Int) : ℚ)

/-- `visualDuration = Math.max(minVisualMonths, actualDuration)`. -/
def visualDuration (now : JSDate) (minVisualMonths : ℚ) (it : ResumeItem) : ℚ :=
  max minVisualMonths ((getMonthsDuration now it.startDate it.endDate : Int) : ℚ)

/-- The first-pass column scan: the first (lowest) index whose recorded
visual end is `≤` the item's visual start, `none` when no column qualifies. -/
def findFirstFit (s : ℚ) : List ℚ → Option Nat
  | [] => none
  | e :: rest => if e ≤ s then some 0 else (findFirstFit s rest).map (· + 1)

/-- One iteration of the first pass of `assignColumnsWithLayout`: place one
item, update the column watermarks (`columnVisualEnds`) and append its
`ItemBounds` record.  When no column fits, the source pushes `0` and then
overwrites that slot with the item's visual end. -/
def assignStep (now : JSDate) (minDateMonth : Int) (minVisualMonths : ℚ)
    (st : List ℚ × List ItemBounds) (item : ResumeItem) : List ℚ × List ItemBounds :=
  let s := itemStartMonths now minDateMonth item
  let e := s + visualDuration now minVisualMonths item
  match findFirstFit s st.1 with
  | some col => (st.1.set col e, st.2 ++ [⟨item.id, s, e, col⟩])
  | none => ((st.1 ++ [0]).set st.1.length e, st.2 ++ [⟨item.id, s, e, st.1.length⟩])

/-- First pass of `assignColumnsWithLayout`: the `itemBounds` list. -/
def computeBounds (now : JSDate) (items : List ResumeItem) (minDateMonth : Int)
    (minVisualMonths : ℚ) : List ItemBounds :=
  ((sortedItems now items).foldl (assignStep now minDateMonth minVisualMonths) ([], [])).2

/-- `Array.prototype.indexOf`: index of the first occurrence, `-1` if absent. -/
def jsIndexOf {α : Type} [DecidableEq α] (x : α) : List α → Int
  | [] => -1
  | y :: ys =>
    if y = x then 0
    else if jsIndexOf x ys = -1 then -1 else jsIndexOf x ys + 1

/-- The second-pass overlap test, exactly as filtered in the source:
`other.start < item.end && other.end > item.start`. -/
def overlapB (other item : ItemBounds) : Bool :=
  decide (other.start < item.stop) && decide (other.stop > item.start)

/-- Second pass of `assignColumnsWithLayout` for one item: its overlap set,
the distinct columns that set occupies (`Set` + numeric sort), and the rank
of the item's own column among them. -/
def layoutFor (all : List ItemBounds) (item : ItemBounds) : ItemLayout :=
  let usedColumns := ((all.filter (fun o => overlapB o item)).map ItemBounds.column).dedup
  let sortedColumns := List.insertionSort (fun a b => a ≤ b) usedColumns
  ⟨item.column, usedColumns.length, jsIndexOf item.column sortedColumns⟩

/-- Source `assignColumnsWithLayout`: the insertion-ordered `Map` from item
id to `ItemLayout`, modelled as the association list in insertion order. -/
def assignColumnsWithLayout (now : JSDate) (items : List ResumeItem)
    (minDateMonth : Int) (minVisualMonths : ℚ) : List (String × ItemLayout) :=
  let bounds := computeBounds now items minDateMonth minVisualMonths
  bounds.map (fun it => (it.id, layoutFor bounds it))

/-- `Math.min` over a spread list (only used on non-empty lists). -/
def jsMinList : List ℚ → ℚ
  | [] => 0
  | t :: ts => ts.foldl min t

/-- `Math.max` over a spread list (only used on non-empty lists). -/
def jsMaxList : List ℚ → ℚ
  | [] => 0
  | t :: ts => ts.foldl max t

/-- `new Date(t)` for a time value `t`: month index is the integer part,
the in-month fraction is the remainder. -/
def dateFromTime (t : ℚ) : JSDate := ⟨⌊t⌋, t - (⌊t⌋ : ℚ)⟩

/-- The `{ minDate, maxDate, totalMonths }` record of the `Timeline` view. -/
structure TimelineBounds where
  minDate : JSDate
  maxDate : JSDate
  totalMonths : Int
deriving DecidableEq, Repr

/-- The timeline-bounds computation of the `Timeline` component: earliest
resolved start / latest bounds-resolved end over the visible items, and the
inclusive month span between them. -/
def timelineBounds (now : JSDate) (items : List ResumeItem) : TimelineBounds :=
  if items.isEmpty then ⟨now, now, 0⟩
  else
    let allTimes := items.map (fun it => timeVal (parseDate now it.startDate)) ++
      items.map (fun it => timeVal (parseDateForBounds now it.endDate))
    let minD := dateFromTime (jsMinList allTimes)
    let maxD := dateFromTime (jsMaxList allTimes)
    ⟨minD, maxD, maxD.month - minD.month + 1⟩

/-- Source `getScaleForMonth`: the calendar year of month `monthIndex`
counted from `minDate` (the `Date` constructor normalises by flooring),
scanned against the zoom zones first-match-wins. -/
def getScaleForMonth (pixelsPerMonth : ℚ) (zoomZones : List ZoomZone)
    (minDateMonth : Int) (monthIndex : Int) : ℚ :=
  let year := (minDateMonth + monthIndex).fdiv 12
  match zoomZones.find? (fun z => decide (z.startYear ≤ year) && decide (year ≤ z.endYear)) with
  | some z => pixelsPerMonth * z.multiplier
  | none => pixelsPerMonth

/-- Source `getPixelOffsetForMonth`: prefix sum of the per-month scale
(the JS loop `for (i = 0; i < monthIndex; i++)` runs `monthIndex.toNat`
times). -/
def getPixelOffsetForMonth (ppm : ℚ) (zones : List ZoomZone) (minDateMonth : Int)
    (monthIndex : Int) : ℚ :=
  ((List.range monthIndex.toNat).map (fun i => getScaleForMonth ppm zones minDateMonth i)).sum

/-- The `totalHeight` memo: sum of the per-month scale over the whole span. -/
def totalHeightVal (ppm : ℚ) (zones : List ZoomZone) (minDateMonth : Int)
    (totalMonths : Int) : ℚ :=
  ((List.range totalMonths.toNat).map (fun i => getScaleForMonth ppm zones minDateMonth i)).sum

/-- The `{ top, height }` record returned by `getItemStyle`. -/
structure ItemStyle where
  top : ℚ
  height : ℚ
deriving DecidableEq, Repr

/-- Source `getItemStyle`: per-month scale summed over the item's duration,
floored at `MIN_ITEM_HEIGHT`; top is the pixel offset of the start month,
mirrored from the bottom when the axis is reversed. -/
def getItemStyle (ppm : ℚ) (zones : List ZoomZone) (now : JSDate) (minDateMonth : Int)
    (totalHeight : ℚ) (isReversed : Bool) (item : ResumeItem) : ItemStyle :=
  let monthsFromStart : Int := (parseDate now item.startDate).month - minDateMonth
  let duration : Int := getMonthsDuration now item.startDate item.endDate
  let rawHeight : ℚ := ((List.range duration.toNat).map
    (fun i => getScaleForMonth ppm zones minDateMonth (monthsFromStart + (i : Int)))).sum
  let height := max MIN_ITEM_HEIGHT rawHeight
  let topOffset := getPixelOffsetForMonth ppm zones minDateMonth monthsFromStart
  ⟨if isReversed then totalHeight - topOffset - height else topOffset, height⟩

/-- The reversed-axis mirror of `getItemStyle`:
`top = totalHeight - topOffset - height`. -/
def reversedTop (totalHeight top height : ℚ) : ℚ := totalHeight - top - height

/-- `minVisualMonths = MIN_ITEM_HEIGHT / pixelsPerMonth` as computed in the
`Timeline` component. -/
def minVisualMonthsOf (pixelsPerMonth : ℚ) : ℚ := MIN_ITEM_HEIGHT / pixelsPerMonth

/-! ## JS number semantics with NaN

The main embedding above covers well-formed date strings.  A malformed
date string makes `Number(...)` return `NaN` in the source, the `Date`
constructor then produces an Invalid Date, and every numeric observation
of it (`getTime`, `getFullYear`, `getMonth`) is `NaN`.  The definitions
below embed that fragment of JS number semantics faithfully so that the
engine's behaviour on malformed input can be settled. -/

/-- A JS number that may be `NaN`. -/
inductive JSNum where
  | nan
  | num (q : ℚ)
deriving DecidableEq, Repr

/-- JS addition: `NaN` absorbs. -/
def jsAdd : JSNum → JSNum → JSNum
  | .num a, .num b => .num (a + b)
  | _, _ => .nan

/-- JS subtraction: `NaN` absorbs. -/
def jsSub : JSNum → JSNum → JSNum
  | .num a, .num b => .num (a - b)
  | _, _ => .nan

/-- `Math.min` on two values: `NaN` if either argument is `NaN`. -/
def jsMin2 : JSNum → JSNum → JSNum
  | .num a, .num b => .num (min a b)
  | _, _ => .nan

/-- `Math.max` on two values: `NaN` if either argument is `NaN`. -/
def jsMax2 : JSNum → JSNum → JSNum
  | .num a, .num b => .num (max a b)
  | _, _ => .nan

/-- `Math.min` over a spread non-empty list of times. -/
def jsMinListN : List JSNum → JSNum
  | [] => .nan
  | t :: ts => ts.foldl jsMin2 t

/-- `Math.max` over a spread non-empty list of times. -/
def jsMaxListN : List JSNum → JSNum
  | [] => .nan
  | t :: ts => ts.foldl jsMax2 t

/-- `getFullYear () * 12 + getMonth ()` of `new Date(t)`: the absolute
month index of a time value, `NaN` for an Invalid Date. -/
def jsMonthOfTime : JSNum → JSNum
  | .num t => .num (⌊t⌋ : ℚ)
  | .nan => .nan

/-- Raw date strings as the engine can actually receive them, including
malformed ones (anything whose split-and-`Number` parse yields `NaN`). -/
inductive JSDateStr where
  | present
  | future
  | ym (year month : Int)
  | malformed
deriving DecidableEq, Repr

/-- An entry as the bounds computation sees it, with raw date strings. -/
structure JSEntry where
  id : String
  startDate : JSDateStr
  endDate : JSDateStr
deriving DecidableEq, Repr

/-- `parseDate(s).getTime()` under JS semantics: a malformed string gives
an Invalid Date, i.e. `NaN`. -/
def jsParseTime (now : JSDate) : JSDateStr → JSNum
  | .present => .num (timeVal now)
  | .future => .num (timeVal now)
  | .ym y m => .num ((y * 12 + (m - 1) : Int) : ℚ)
  | .malformed => .nan

/-- `parseDateForBounds(s).getTime()` under JS semantics. -/
def jsParseBoundsTime (now : JSDate) : JSDateStr → JSNum
  | .present => .num (timeVal now)
  | .future => .num (timeVal ⟨now.month + 6, now.frac⟩)
  | .ym y m => .num ((y * 12 + (m - 1) : Int) : ℚ)
  | .malformed => .nan

/-- The `minDate` month index computed by the `Timeline` bounds memo under
JS semantics: `new Date(Math.min(...allDates))`, `NaN` when any date is
invalid. -/
def jsMinDateMonth (now : JSDate) (items : List JSEntry) : JSNum :=
  jsMonthOfTime (jsMinListN
    (items.map (fun it => jsParseTime now it.startDate) ++
      items.map (fun it => jsParseBoundsTime now it.endDate)))

/-- The `maxDate` month index of the `Timeline` bounds memo under JS
semantics. -/
def jsMaxDateMonth (now : JSDate) (items : List JSEntry) : JSNum :=
  jsMonthOfTime (jsMaxListN
    (items.map (fun it => jsParseTime now it.startDate) ++
      items.map (fun it => jsParseBoundsTime now it.endDate)))

/-- The `totalMonths` value of the `Timeline` bounds memo under JS
semantics: `(max - min) + 1` in month indices, `NaN`-propagating. -/
def jsTotalMonths (now : JSDate) (items : List JSEntry) : JSNum :=
  if items.isEmpty then .num 0
  else jsAdd (jsSub (jsMaxDateMonth now items) (jsMinDateMonth now items)) (.num 1)

/-! ## Spec-side definitions (for the refinement claim C4)

These definitions follow the wording of the specification's packing
contract (§4.1 steps 2–3), written independently of the source's shape:
the sort is by the pair (resolved start, original input position) — the
spec's explicit tie-break rule — and the column scan is an ascending
search over column indices.  The refinement theorem proves they produce
exactly the source's first-pass output. -/

/-- Spec §4.1 step 2 ordering: resolved start date ascending, ties broken
by original input position. -/
def specLexLE (key : ResumeItem → ℚ) (a b : Nat × ResumeItem) : Prop :=
  key a.2 < key b.2 ∨ (key a.2 = key b.2 ∧ a.1 ≤ b.1)

instance (key : ResumeItem → ℚ) : DecidableRel (specLexLE key) := by
  intro a b
  unfold specLexLE
  infer_instance

/-- Spec §4.1 step 2: sort entries by resolved start date ascending,
ties broken by original input order, realised by ordering the
position-tagged entries lexicographically. -/
def specSortEntries (now : JSDate) (items : List ResumeItem) : List ResumeItem :=
  (List.insertionSort (specLexLE (startSortKey now)) items.enum).map Prod.snd

/-- Spec §4.1 step 3 column scan: the first column index (ascending) whose
watermark is `≤` the entry's visual start. -/
def specFirstFreeColumn (watermarks : List ℚ) (s : ℚ) : Option Nat :=
  (List.range watermarks.length).find? (fun c => decide (watermarks.getD c 0 ≤ s))

/-- Spec §4.1 step 3: place one entry on the first free column, or open a
new column at the next index; record the visual interval and update the
chosen column's watermark to the entry's visual end. -/
def specPlaceEntry (now : JSDate) (minDateMonth : Int) (minVisualMonths : ℚ)
    (st : List ℚ × List ItemBounds) (item : ResumeItem) : List ℚ × List ItemBounds :=
  let s := itemStartMonths now minDateMonth item
  let e := s + visualDuration now minVisualMonths item
  match specFirstFreeColumn st.1 s with
  | some col => (st.1.set col e, st.2 ++ [⟨item.id, s, e, col⟩])
  | none => (st.1 ++ [e], st.2 ++ [⟨item.id, s, e, st.1.length⟩])

/-- Spec §4.1 steps 1–3 assembled: the column assignment the specification
describes. -/
def specAssignColumns (now : JSDate) (items : List ResumeItem) (minDateMonth : Int)
    (minVisualMonths : ℚ) : List ItemBounds :=
  ((specSortEntries now items).foldl (specPlaceEntry now minDateMonth minVisualMonths)
    ([], [])).2

/-! ## Helper lemmas -/

theorem foldl_max_init (ts : List ℚ) : ∀ a : ℚ, a ≤ ts.foldl max a := by
  induction ts with
  | nil => intro a; simp
  | cons t ts ih =>
    intro a
    exact le_trans (le_max_left a t) (ih (max a t))

theorem foldl_max_mem (ts : List ℚ) : ∀ a : ℚ, ∀ x ∈ ts, x ≤ ts.foldl max a := by
  induction ts with
  | nil => simp
  | cons t ts ih =>
    intro a x hx
    rcases List.mem_cons.1 hx with h | h
    · subst h
      exact le_trans (le_max_right a x) (foldl_max_init ts (max a x))
    · exact ih (max a t) x h

theorem le_jsMaxList {x : ℚ} {l : List ℚ} (hx : x ∈ l) : x ≤ jsMaxList l := by
  match l with
  | t :: ts =>
    rcases List.mem_cons.1 hx with h | h
    · subst h; exact foldl_max_init ts x
    · exact foldl_max_mem ts t x h

/-- A single entry always lands in column 0 with a singleton overlap
cluster, provided its visual interval is non-degenerate. -/
theorem assign_singleton (now : JSDate) (minD : Int) (mvm : ℚ) (it : ResumeItem)
    (hpos : 0 < visualDuration now mvm it) :
    assignColumnsWithLayout now [it] minD mvm = [(it.id, ⟨0, 1, 0⟩)] := by
  have hb : computeBounds now [it] minD mvm =
      [⟨it.id, itemStartMonths now minD it,
        itemStartMonths now minD it + visualDuration now mvm it, 0⟩] := by
    simp [computeBounds, sortedItems, List.insertionSort, assignStep, findFirstFit]
  have hov : overlapB ⟨it.id, itemStartMonths now minD it,
      itemStartMonths now minD it + visualDuration now mvm it, 0⟩
      ⟨it.id, itemStartMonths now minD it,
      itemStartMonths now minD it + visualDuration now mvm it, 0⟩ = true := by
    simp [overlapB]
    linarith
  simp [assignColumnsWithLayout, hb, layoutFor, hov, jsIndexOf, List.insertionSort,
    List.orderedInsert]

theorem getD_set_self (l : List ℚ) (i : Nat) (h : i < l.length) (a : ℚ) :
    (l.set i a).getD i 0 = a := by
  rw [List.getD_eq_getElem?_getD, List.getElem?_set_self h]
  rfl

theorem getD_set_ne (l : List ℚ) {i j : Nat} (h : i ≠ j) (a : ℚ) :
    (l.set i a).getD j 0 = l.getD j 0 := by
  rw [List.getD_eq_getElem?_getD, List.getElem?_set_ne h, ← List.getD_eq_getElem?_getD]

theorem getD_append_left (l1 l2 : List ℚ) {j : Nat} (h : j < l1.length) :
    (l1 ++ l2).getD j 0 = l1.getD j 0 := by
  rw [List.getD_eq_getElem?_getD, List.getElem?_append, if_pos h,
    ← List.getD_eq_getElem?_getD]

theorem getD_append_len (l : List ℚ) (a : ℚ) : (l ++ [a]).getD l.length 0 = a := by
  rw [List.getD_eq_getElem?_getD, List.getElem?_concat_length]
  rfl

theorem findFirstFit_some {s : ℚ} : ∀ {ends : List ℚ} {col : Nat},
    findFirstFit s ends = some col →
    col < ends.length ∧ ends.getD col 0 ≤ s ∧ ∀ c, c < col → s < ends.getD c 0 := by
  intro ends
  induction ends with
  | nil => intro col h; cases h
  | cons e rest ih =>
    intro col h
    by_cases he : e ≤ s
    · rw [findFirstFit, if_pos he] at h
      cases h
      exact ⟨Nat.succ_pos _, by simpa using he, fun c hc => absurd hc (Nat.not_lt_zero c)⟩
    · rw [findFirstFit, if_neg he] at h
      rcases Option.map_eq_some'.1 h with ⟨c', hc', rfl⟩
      rcases ih hc' with ⟨h1, h2, h3⟩
      refine ⟨Nat.succ_lt_succ h1, by simpa using h2, fun c hc => ?_⟩
      cases c with
      | zero => simpa using lt_of_not_le he
      | succ k => simpa using h3 k (Nat.lt_of_succ_lt_succ hc)

theorem findFirstFit_none {s : ℚ} : ∀ {ends : List ℚ},
    findFirstFit s ends = none → ∀ c, c < ends.length → s < ends.getD c 0 := by
  intro ends
  induction ends with
  | nil => intro _ c hc; cases hc
  | cons e rest ih =>
    intro h c hc
    by_cases he : e ≤ s
    · rw [findFirstFit, if_pos he] at h; cases h
    · rw [findFirstFit, if_neg he] at h
      cases c with
      | zero => simpa using lt_of_not_le he
      | succ k =>
        have : findFirstFit s rest = none := by
          cases hr : findFirstFit s rest with
          | none => rfl
          | some c' => rw [hr] at h; cases h
        simpa using ih this k (Nat.lt_of_succ_lt_succ hc)

theorem one_le_visualDuration (now : JSDate) (mvm : ℚ) (it : ResumeItem) :
    1 ≤ visualDuration now mvm it := by
  unfold visualDuration
  refine le_trans ?_ (le_max_right _ _)
  have h : (1 : Int) ≤ getMonthsDuration now it.startDate it.endDate := le_max_left _ _
  exact_mod_cast h

/-- The invariant the first pass of `assignColumnsWithLayout` maintains on
its state (`columnVisualEnds`, `itemBounds`):
1. every recorded item occupies an existing column, ends no later than that
   column's watermark, and has a non-degenerate interval;
2. every column's watermark is the visual end of some recorded item in it;
3. items sharing a column are recorded in order, earlier one ending no
   later than the later one starts;
4. every column left of an item's own column is blocked at the item's
   visual start by some recorded item in that column. -/
def ColumnsInv (ends : List ℚ) (acc : List ItemBounds) : Prop :=
  (∀ b ∈ acc, b.column < ends.length ∧ b.stop ≤ ends.getD b.column 0 ∧ b.start < b.stop) ∧
  (∀ c, c < ends.length → ∃ b ∈ acc, b.column = c ∧ ends.getD c 0 = b.stop) ∧
  acc.Pairwise (fun a b => a.column = b.column → a.stop ≤ b.start) ∧
  (∀ b ∈ acc, ∀ c, c < b.column →
    ∃ b2 ∈ acc, b2.column = c ∧ b2.start ≤ b.start ∧ b.start < b2.stop)

theorem assignStep_preserves (now : JSDate) (minD : Int) (mvm : ℚ)
    (ends : List ℚ) (acc : List ItemBounds) (x : ResumeItem)
    (hstart : ∀ b ∈ acc, b.start ≤ itemStartMonths now minD x)
    (hinv : ColumnsInv ends acc) :
    ColumnsInv (assignStep now minD mvm (ends, acc) x).1
      (assignStep now minD mvm (ends, acc) x).2 ∧
    ∀ b ∈ (assignStep now minD mvm (ends, acc) x).2,
      b ∈ acc ∨ b.start = itemStartMonths now minD x := by
  obtain ⟨inv1, inv2, inv3, inv4⟩ := hinv
  have hv : 1 ≤ visualDuration now mvm x := one_le_visualDuration now mvm x
  set s := itemStartMonths now minD x with hs
  set v := visualDuration now mvm x with hvdef
  have hsv : s < s + v := by linarith
  unfold assignStep
  rw [← hs, ← hvdef]
  cases hff : findFirstFit s ends with
  | some col =>
    obtain ⟨hcol, hwm, hblock⟩ := findFirstFit_some hff
    simp only [hff]
    set nb : ItemBounds := ⟨x.id, s, s + v, col⟩ with hnb
    refine ⟨⟨?_, ?_, ?_, ?_⟩, ?_⟩
    · intro b hb
      rcases List.mem_append.1 hb with hb | hb
      · obtain ⟨h1, h2, h3⟩ := inv1 b hb
        refine ⟨by simpa using h1, ?_, h3⟩
        by_cases hbc : b.column = col
        · rw [hbc, getD_set_self ends col hcol]
          calc b.stop ≤ ends.getD b.column 0 := h2
            _ = ends.getD col 0 := by rw [hbc]
            _ ≤ s := hwm
            _ ≤ s + v := by linarith
        · rw [getD_set_ne ends (fun h => hbc h.symm)]
          exact h2
      · rcases List.mem_singleton.1 hb with rfl
        exact ⟨by simpa using hcol, by rw [getD_set_self ends col hcol], hsv⟩
    · intro c hc
      rw [List.length_set] at hc
      by_cases hcc : c = col
      · subst hcc
        exact ⟨nb, List.mem_append_right _ (List.mem_singleton.2 rfl), rfl,
          getD_set_self ends c hcol _⟩
      · obtain ⟨b, hb, hbc, hbd⟩ := inv2 c hc
        exact ⟨b, List.mem_append_left _ hb, hbc,
          by rw [getD_set_ne ends (fun h => hcc h.symm)]; exact hbd⟩
    · rw [List.pairwise_append]
      refine ⟨inv3, List.pairwise_singleton _ _, ?_⟩
      intro a ha b hb hab
      rcases List.mem_singleton.1 hb with rfl
      show a.stop ≤ s
      calc a.stop ≤ ends.getD a.column 0 := (inv1 a ha).2.1
        _ = ends.getD col 0 := by rw [hab]
        _ ≤ s := hwm
    · intro b hb c hc
      rcases List.mem_append.1 hb with hb | hb
      · obtain ⟨b2, hb2, h1, h2, h3⟩ := inv4 b hb c hc
        exact ⟨b2, List.mem_append_left _ hb2, h1, h2, h3⟩
      · rcases List.mem_singleton.1 hb with rfl
        obtain ⟨b2, hb2, hb2c, hb2d⟩ := inv2 c (lt_trans hc hcol)
        refine ⟨b2, List.mem_append_left _ hb2, hb2c, hstart b2 hb2, ?_⟩
        rw [← hb2d]
        exact hblock c hc
    · intro b hb
      rcases List.mem_append.1 hb with hb | hb
      · exact Or.inl hb
      · rcases List.mem_singleton.1 hb with rfl
        exact Or.inr rfl
  | none =>
    have hblock := findFirstFit_none hff
    have hset : (ends ++ [(0 : ℚ)]).set ends.length (s + v) = ends ++ [s + v] := by
      have : ends.length < (ends ++ [(0 : ℚ)]).length := by simp
      apply List.ext_getElem?
      intro n
      by_cases hn : n = ends.length
      · subst hn
        rw [List.getElem?_set_self this, List.getElem?_concat_length]
      · rw [List.getElem?_set_ne (fun h => hn h.symm)]
        by_cases hlt : n < ends.length
        · rw [List.getElem?_append, if_pos (by simpa using hlt),
            List.getElem?_append, if_pos (by simpa using hlt)]
        · have h1 : (ends ++ [(0 : ℚ)]).length ≤ n := by
            simp only [List.length_append, List.length_singleton]
            omega
          have h2 : (ends ++ [s + v]).length ≤ n := by
            simp only [List.length_append, List.length_singleton]
            omega
          rw [List.getElem?_eq_none h1, List.getElem?_eq_none h2]
    simp only [hff, hset]
    set nb : ItemBounds := ⟨x.id, s, s + v, ends.length⟩ with hnb
    refine ⟨⟨?_, ?_, ?_, ?_⟩, ?_⟩
    · intro b hb
      rcases List.mem_append.1 hb with hb | hb
      · obtain ⟨h1, h2, h3⟩ := inv1 b hb
        refine ⟨by simp; omega, ?_, h3⟩
        rw [getD_append_left ends [s + v] h1]
        exact h2
      · rcases List.mem_singleton.1 hb with rfl
        exact ⟨by simp, by rw [getD_append_len], hsv⟩
    · intro c hc
      simp only [List.length_append, List.length_singleton] at hc
      by_cases hcc : c = ends.length
      · subst hcc
        exact ⟨nb, List.mem_append_right _ (List.mem_singleton.2 rfl), rfl,
          getD_append_len ends (s + v)⟩
      · have hlt : c < ends.length := by omega
        obtain ⟨b, hb, hbc, hbd⟩ := inv2 c hlt
        exact ⟨b, List.mem_append_left _ hb, hbc,
          by rw [getD_append_left ends [s + v] hlt]; exact hbd⟩
    · rw [List.pairwise_append]
      refine ⟨inv3, List.pairwise_singleton _ _, ?_⟩
      intro a ha b hb hab
      rcases List.mem_singleton.1 hb with rfl
      exact absurd hab (Nat.ne_of_lt (inv1 a ha).1)
    · intro b hb c hc
      rcases List.mem_append.1 hb with hb | hb
      · obtain ⟨b2, hb2, h1, h2, h3⟩ := inv4 b hb c hc
        exact ⟨b2, List.mem_append_left _ hb2, h1, h2, h3⟩
      · rcases List.mem_singleton.1 hb with rfl
        obtain ⟨b2, hb2, hb2c, hb2d⟩ := inv2 c hc
        refine ⟨b2, List.mem_append_left _ hb2, hb2c, hstart b2 hb2, ?_⟩
        rw [← hb2d]
        exact hblock c hc
    · intro b hb
      rcases List.mem_append.1 hb with hb | hb
      · exact Or.inl hb
      · rcases List.mem_singleton.1 hb with rfl
        exact Or.inr rfl

theorem assign_fold (now : JSDate) (minD : Int) (mvm : ℚ) :
    ∀ (L : List ResumeItem) (ends : List ℚ) (acc : List ItemBounds),
      L.Pairwise (fun a b => itemStartMonths now minD a ≤ itemStartMonths now minD b) →
      (∀ b ∈ acc, ∀ x ∈ L, b.start ≤ itemStartMonths now minD x) →
      ColumnsInv ends acc →
      ColumnsInv (L.foldl (assignStep now minD mvm) (ends, acc)).1
        (L.foldl (assignStep now minD mvm) (ends, acc)).2 := by
  intro L
  induction L with
  | nil => intro ends acc _ _ hinv; exact hinv
  | cons x L ih =>
    intro ends acc hpair hstart hinv
    rw [List.foldl_cons]
    rcases List.pairwise_cons.1 hpair with ⟨hx, hpair2⟩
    have hstep := assignStep_preserves now minD mvm ends acc x
      (fun b hb => hstart b hb x (List.mem_cons_self x L)) hinv
    refine ih (assignStep now minD mvm (ends, acc) x).1
      (assignStep now minD mvm (ends, acc) x).2 hpair2 ?_ hstep.1
    intro b hb y hy
    rcases hstep.2 b hb with hbo | hbs
    · exact hstart b hbo y (List.mem_cons_of_mem x hy)
    · rw [hbs]
      exact hx y hy

theorem computeBounds_start_lt_stop (now : JSDate) (minD : Int) (mvm : ℚ) :
    ∀ (L : List ResumeItem) (st : List ℚ × List ItemBounds),
      (∀ b ∈ st.2, b.start < b.stop) →
      ∀ b ∈ (L.foldl (assignStep now minD mvm) st).2, b.start < b.stop := by
  intro L
  induction L with
  | nil => intro st h; exact h
  | cons x L ih =>
    intro st h
    rw [List.foldl_cons]
    apply ih
    intro b hb
    have hv := one_le_visualDuration now mvm x
    unfold assignStep at hb
    cases hff : findFirstFit (itemStartMonths now minD x) st.1 with
    | some col =>
      simp only [hff] at hb
      rcases List.mem_append.1 hb with hb | hb
      · exact h b hb
      · rcases List.mem_singleton.1 hb with rfl
        show itemStartMonths now minD x < itemStartMonths now minD x + _
        linarith
    | none =>
      simp only [hff] at hb
      rcases List.mem_append.1 hb with hb | hb
      · exact h b hb
      · rcases List.mem_singleton.1 hb with rfl
        show itemStartMonths now minD x < itemStartMonths now minD x + _
        linarith

theorem parseDate_frac_bounds (now : JSDate) (hf0 : 0 ≤ now.frac) (hf1 : now.frac < 1)
    (d : DateStr) : 0 ≤ (parseDate now d).frac ∧ (parseDate now d).frac < 1 := by
  cases d with
  | present => exact ⟨hf0, hf1⟩
  | future => exact ⟨hf0, hf1⟩
  | ym y m => exact ⟨le_refl 0, by show (0 : ℚ) < 1; norm_num⟩

theorem sortKey_le_months {now : JSDate} (hf0 : 0 ≤ now.frac) (hf1 : now.frac < 1)
    (minD : Int) (a b : ResumeItem) (h : startSortKey now a ≤ startSortKey now b) :
    itemStartMonths now minD a ≤ itemStartMonths now minD b := by
  obtain ⟨ha0, _⟩ := parseDate_frac_bounds now hf0 hf1 a.startDate
  obtain ⟨_, hb1⟩ := parseDate_frac_bounds now hf0 hf1 b.startDate
  unfold startSortKey timeVal at h
  unfold itemStartMonths
  have hm : (parseDate now a.startDate).month ≤ (parseDate now b.startDate).month := by
    have hq : ((parseDate now a.startDate).month : ℚ)
        < ((parseDate now b.startDate).month : ℚ) + 1 := by linarith
    have : (parseDate now a.startDate).month < (parseDate now b.startDate).month + 1 := by
      exact_mod_cast hq
    omega
  have : (parseDate now a.startDate).month - minD ≤ (parseDate now b.startDate).month - minD := by
    omega
  exact_mod_cast this

theorem sortedItems_pairwise_months (now : JSDate) (hf0 : 0 ≤ now.frac)
    (hf1 : now.frac < 1) (items : List ResumeItem) (minD : Int) :
    (sortedItems now items).Pairwise
      (fun a b => itemStartMonths now minD a ≤ itemStartMonths now minD b) := by
  have hs : (sortedItems now items).Pairwise
      (fun a b => startSortKey now a ≤ startSortKey now b) := by
    haveI h1 : IsTotal ResumeItem (fun a b => startSortKey now a ≤ startSortKey now b) :=
      ⟨fun a b => le_total _ _⟩
    haveI h2 : IsTrans ResumeItem (fun a b => startSortKey now a ≤ startSortKey now b) :=
      ⟨fun _ _ _ hab hbc => le_trans hab hbc⟩
    exact List.sorted_insertionSort _ items
  exact hs.imp (fun h => sortKey_le_months hf0 hf1 minD _ _ h)

/-- The full first-pass invariant holds of the produced bounds list. -/
theorem computeBounds_inv (now : JSDate) (hf0 : 0 ≤ now.frac) (hf1 : now.frac < 1)
    (items : List ResumeItem) (minD : Int) (mvm : ℚ) :
    ColumnsInv ((sortedItems now items).foldl (assignStep now minD mvm) ([], [])).1
      (computeBounds now items minD mvm) := by
  unfold computeBounds
  exact assign_fold now minD mvm (sortedItems now items) [] []
    (sortedItems_pairwise_months now hf0 hf1 items minD)
    (fun b hb => absurd hb (List.not_mem_nil b))
    ⟨fun b hb => absurd hb (List.not_mem_nil b),
      fun c hc => absurd hc (Nat.not_lt_zero c),
      List.Pairwise.nil,
      fun b hb => absurd hb (List.not_mem_nil b)⟩

theorem set_concat_len (l : List ℚ) (a e : ℚ) : (l ++ [a]).set l.length e = l ++ [e] := by
  have hlt : l.length < (l ++ [a]).length := by simp
  apply List.ext_getElem?
  intro n
  by_cases hn : n = l.length
  · subst hn
    rw [List.getElem?_set_self hlt, List.getElem?_concat_length]
  · rw [List.getElem?_set_ne (fun h => hn h.symm)]
    by_cases hlt2 : n < l.length
    · rw [List.getElem?_append, if_pos (by simpa using hlt2),
        List.getElem?_append, if_pos (by simpa using hlt2)]
    · have h1 : (l ++ [a]).length ≤ n := by
        simp only [List.length_append, List.length_singleton]
        omega
      have h2 : (l ++ [e]).length ≤ n := by
        simp only [List.length_append, List.length_singleton]
        omega
      rw [List.getElem?_eq_none h1, List.getElem?_eq_none h2]

theorem specFirstFreeColumn_eq (s : ℚ) :
    ∀ ws : List ℚ, specFirstFreeColumn ws s = findFirstFit s ws := by
  intro ws
  induction ws with
  | nil => rfl
  | cons e rest ih =>
    unfold specFirstFreeColumn
    rw [List.length_cons, List.range_succ_eq_map]
    by_cases he : e ≤ s
    · rw [List.find?_cons_of_pos _ (by simp [he]), findFirstFit, if_pos he]
    · rw [List.find?_cons_of_neg _ (by simp [he]), findFirstFit, if_neg he,
        List.find?_map]
      have hfun : ((fun c => decide (List.getD (e :: rest) c 0 ≤ s)) ∘ Nat.succ)
          = fun c => decide (List.getD rest c 0 ≤ s) := by
        funext c
        simp [Function.comp, List.getD_cons_succ]
      have hsucc : Nat.succ = (· + 1) := funext fun _ => rfl
      rw [hfun, hsucc]
      show Option.map _ (specFirstFreeColumn rest s) = _
      rw [ih]

theorem orderedInsert_enumFrom_snd (now : JSDate) (x : ResumeItem) (n : Nat) :
    ∀ L : List (Nat × ResumeItem), (∀ p ∈ L, n < p.1) →
      (List.orderedInsert (specLexLE (startSortKey now)) (n, x) L).map Prod.snd
        = List.orderedInsert (fun a b => startSortKey now a ≤ startSortKey now b) x
            (L.map Prod.snd) := by
  intro L
  induction L with
  | nil => intro _; rfl
  | cons p L ih =>
    intro hidx
    have hp : n < p.1 := hidx p (List.mem_cons_self p L)
    by_cases hr : specLexLE (startSortKey now) (n, x) p
    · have hk : startSortKey now x ≤ startSortKey now p.2 := by
        rcases hr with h | ⟨h, _⟩
        · exact le_of_lt h
        · exact le_of_eq h
      simp only [List.orderedInsert, if_pos hr, if_pos hk, List.map_cons]
    · have hk : ¬ startSortKey now x ≤ startSortKey now p.2 := by
        intro hle
        apply hr
        rcases lt_or_eq_of_le hle with h | h
        · exact Or.inl h
        · exact Or.inr ⟨h, le_of_lt hp⟩
      simp only [List.orderedInsert, if_neg hr, if_neg hk, List.map_cons]
      rw [ih (fun q hq => hidx q (List.mem_cons_of_mem p hq))]

theorem insertionSort_enumFrom_snd (now : JSDate) :
    ∀ (l : List ResumeItem) (n : Nat),
      (List.insertionSort (specLexLE (startSortKey now)) (l.enumFrom n)).map Prod.snd
        = List.insertionSort (fun a b => startSortKey now a ≤ startSortKey now b) l := by
  intro l
  induction l with
  | nil => intro n; rfl
  | cons x l ih =>
    intro n
    show (List.insertionSort _ ((n, x) :: l.enumFrom (n + 1))).map Prod.snd = _
    rw [List.insertionSort, List.insertionSort, ← ih (n + 1)]
    apply orderedInsert_enumFrom_snd
    intro p hp
    have hmem : p ∈ l.enumFrom (n + 1) := (List.perm_insertionSort _ _).subset hp
    have hle : n + 1 ≤ p.1 := (List.mem_enumFrom hmem).1
    omega

theorem specSort_eq_sorted (now : JSDate) (items : List ResumeItem) :
    specSortEntries now items = sortedItems now items := by
  unfold specSortEntries sortedItems
  exact insertionSort_enumFrom_snd now items 0

theorem specPlace_eq_assignStep (now : JSDate) (minD : Int) (mvm : ℚ)
    (st : List ℚ × List ItemBounds) (x : ResumeItem) :
    specPlaceEntry now minD mvm st x = assignStep now minD mvm st x := by
  simp only [specPlaceEntry, assignStep, specFirstFreeColumn_eq]
  cases findFirstFit (itemStartMonths now minD x) st.1 with
  | some col => rfl
  | none =>
    show (st.1 ++ [_], _) = ((st.1 ++ [0]).set st.1.length _, _)
    rw [set_concat_len]

theorem jsIndexOf_mem_range {α : Type} [DecidableEq α] {x : α} :
    ∀ {l : List α}, x ∈ l → 0 ≤ jsIndexOf x l ∧ jsIndexOf x l < (l.length : Int) := by
  intro l
  induction l with
  | nil => intro h; cases h
  | cons y ys ih =>
    intro hx
    by_cases hyx : y = x
    · rw [jsIndexOf, if_pos hyx]
      refine ⟨le_refl 0, ?_⟩
      simp only [List.length_cons]
      push_cast
      positivity
    · have hxys : x ∈ ys := by
        rcases List.mem_cons.1 hx with h | h
        · exact absurd h.symm hyx
        · exact h
      obtain ⟨h0, hlt⟩ := ih hxys
      rw [jsIndexOf, if_neg hyx, if_neg (by omega)]
      simp only [List.length_cons]
      push_cast
      omega

theorem overlapB_iff (a b : ItemBounds) :
    overlapB a b = true ↔ a.start < b.stop ∧ b.start < a.stop := by
  unfold overlapB
  simp only [Bool.and_eq_true, decide_eq_true_eq]

theorem overlapB_symm {a b : ItemBounds} (h : overlapB a b = true) :
    overlapB b a = true := by
  rw [overlapB_iff] at h ⊢
  tauto

theorem getD_mem {l : List ItemBounds} {k : Nat} (hk : k < l.length) :
    l.getD k default ∈ l := by
  rw [List.getD_eq_getElem?_getD, List.getElem?_eq_getElem hk]
  exact List.getElem_mem hk

theorem mem_getD_index {l : List ItemBounds} {b : ItemBounds} (hb : b ∈ l) :
    ∃ k, k < l.length ∧ l.getD k default = b := by
  rcases List.mem_iff_getElem.1 hb with ⟨k, hk, hkb⟩
  refine ⟨k, hk, ?_⟩
  rw [List.getD_eq_getElem?_getD, List.getElem?_eq_getElem hk]
  exact hkb

theorem jsIndexOf_injOn {α : Type} [DecidableEq α] :
    ∀ {l : List α}, l.Nodup → ∀ {x y : α}, x ∈ l → y ∈ l →
      jsIndexOf x l = jsIndexOf y l → x = y := by
  intro l
  induction l with
  | nil => intro _ x y hx; cases hx
  | cons a t ih =>
    intro hnd x y hx hy heq
    have hand := List.nodup_cons.1 hnd
    by_cases hax : a = x
    · by_cases hay : a = y
      · rw [← hax, ← hay]
      · have hyt : y ∈ t := by
          rcases List.mem_cons.1 hy with h | h
          · exact absurd h.symm hay
          · exact h
        obtain ⟨h0, _⟩ := jsIndexOf_mem_range hyt
        rw [jsIndexOf, if_pos hax, jsIndexOf, if_neg hay, if_neg (by omega)] at heq
        omega
    · have hxt : x ∈ t := by
        rcases List.mem_cons.1 hx with h | h
        · exact absurd h.symm hax
        · exact h
      by_cases hay : a = y
      · obtain ⟨h0, _⟩ := jsIndexOf_mem_range hxt
        rw [jsIndexOf, if_neg hax, if_neg (by omega), jsIndexOf, if_pos hay] at heq
        omega
      · have hyt : y ∈ t := by
          rcases List.mem_cons.1 hy with h | h
          · exact absurd h.symm hay
          · exact h
        obtain ⟨hx0, _⟩ := jsIndexOf_mem_range hxt
        obtain ⟨hy0, _⟩ := jsIndexOf_mem_range hyt
        rw [jsIndexOf, if_neg hax, if_neg (by omega), jsIndexOf, if_neg hay,
          if_neg (by omega)] at heq
        exact ih hand.2 hxt hyt (by omega)

theorem jsIndexOf_image_nodup :
    ∀ {l : List Nat}, l.Nodup →
      Finset.image (fun x => jsIndexOf x l) l.toFinset
        = Finset.image (fun k : Nat => (k : Int)) (Finset.range l.length) := by
  intro l
  induction l with
  | nil => intro _; rfl
  | cons a t ih =>
    intro hnd
    have hand := List.nodup_cons.1 hnd
    rw [List.toFinset_cons, Finset.image_insert]
    have ha0 : jsIndexOf a (a :: t) = 0 := by rw [jsIndexOf, if_pos rfl]
    have hshift : ∀ x ∈ t.toFinset,
        jsIndexOf x (a :: t) = jsIndexOf x t + 1 := by
      intro x hx
      have hxt : x ∈ t := List.mem_toFinset.1 hx
      have hax : a ≠ x := fun h => hand.1 (h ▸ hxt)
      obtain ⟨h0, _⟩ := jsIndexOf_mem_range hxt
      rw [jsIndexOf, if_neg hax, if_neg (by omega)]
    rw [ha0, Finset.image_congr (fun x hx => hshift x hx)]
    have himg : Finset.image (fun x => jsIndexOf x t + 1) t.toFinset
        = Finset.image (fun y => y + 1) (Finset.image (fun x => jsIndexOf x t) t.toFinset) := by
      rw [Finset.image_image]
      rfl
    rw [himg, ih hand.2]
    ext x
    simp only [List.length_cons, Finset.mem_insert, Finset.mem_image, Finset.mem_range]
    constructor
    · rintro (rfl | ⟨y, ⟨k, hk, rfl⟩, rfl⟩)
      · exact ⟨0, by omega, rfl⟩
      · exact ⟨k + 1, by omega, by push_cast; ring⟩
    · rintro ⟨k, hk, rfl⟩
      cases k with
      | zero => exact Or.inl rfl
      | succ m => exact Or.inr ⟨(m : Int), ⟨m, by omega, rfl⟩, by push_cast; ring⟩

theorem sorted_nodup_eq_finsetSort (l : List Nat) (s : Finset Nat)
    (hs : List.Sorted (· ≤ ·) l) (hnd : l.Nodup) (hmem : ∀ x, x ∈ l ↔ x ∈ s) :
    l = s.sort (· ≤ ·) := by
  apply List.eq_of_perm_of_sorted ?_ hs (Finset.sort_sorted _ _)
  refine (List.perm_ext_iff_of_nodup hnd (Finset.sort_nodup _ _)).2 ?_
  intro x
  rw [hmem x, Finset.mem_sort]

/-! ## Claims -/

/-- C6: reversing the axis and re-reversing returns the original top for
every entry: the reversed top of `getItemStyle` is the mirror
`totalHeight - top - height` of the unreversed one, and applying that
mirror twice (same `totalHeight` and `height`) is the identity. -/
theorem c6_reversed_roundtrip (ppm : ℚ) (zones : List ZoomZone) (now : JSDate)
    (minDateMonth : Int) (totalHeight : ℚ) (item : ResumeItem) :
    (getItemStyle ppm zones now minDateMonth totalHeight true item).top
      = reversedTop totalHeight
          (getItemStyle ppm zones now minDateMonth totalHeight false item).top
          (getItemStyle ppm zones now minDateMonth totalHeight false item).height
    ∧ ∀ H t h : ℚ, reversedTop H (reversedTop H t h) h = t := by
  refine ⟨by simp [getItemStyle, reversedTop], fun H t h => ?_⟩
  unfold reversedTop
  ring

/-- C7: a zoom-zone list whose every zone has multiplier 1 yields the same
per-month scale as the empty zoom-zone list, for every month index, and
hence the same pixel offsets and the same total height. -/
theorem c7_identity_zoom (zones : List ZoomZone) (h : ∀ z ∈ zones, z.multiplier = 1)
    (ppm : ℚ) (minDateMonth : Int) :
    (∀ monthIndex : Int, getScaleForMonth ppm zones minDateMonth monthIndex
        = getScaleForMonth ppm [] minDateMonth monthIndex)
    ∧ (∀ monthIndex : Int, getPixelOffsetForMonth ppm zones minDateMonth monthIndex
        = getPixelOffsetForMonth ppm [] minDateMonth monthIndex)
    ∧ ∀ totalMonths : Int, totalHeightVal ppm zones minDateMonth totalMonths
        = totalHeightVal ppm [] minDateMonth totalMonths := by
  have hscale : ∀ monthIndex : Int,
      getScaleForMonth ppm zones minDateMonth monthIndex = ppm := by
    intro i
    simp only [getScaleForMonth]
    cases hf : zones.find?
        (fun z => decide (z.startYear ≤ (minDateMonth + i).fdiv 12) &&
          decide ((minDateMonth + i).fdiv 12 ≤ z.endYear)) with
    | none => rfl
    | some z =>
      show ppm * z.multiplier = ppm
      rw [h z (List.mem_of_find?_eq_some hf)]
      ring
  have hempty : ∀ monthIndex : Int,
      getScaleForMonth ppm [] minDateMonth monthIndex = ppm := by
    intro i; rfl
  exact ⟨fun i => by rw [hscale i, hempty i],
    fun i => by unfold getPixelOffsetForMonth; simp only [hscale, hempty],
    fun tm => by unfold totalHeightVal; simp only [hscale, hempty]⟩

/-- C7 witness: the theorem applied to the concrete zone list
`[{2024, 2025, 1}]`. -/
theorem c7_identity_zoom_witness :
    (∀ z ∈ [ZoomZone.mk 2024 2025 1], z.multiplier = 1) ∧
    ∀ monthIndex : Int, getScaleForMonth 16 [ZoomZone.mk 2024 2025 1] (2023 * 12) monthIndex
      = getScaleForMonth 16 [] (2023 * 12) monthIndex :=
  ⟨by decide, (c7_identity_zoom [ZoomZone.mk 2024 2025 1] (by decide) 16 (2023 * 12)).1⟩

/-- C9: the height `getItemStyle` produces is always at least
`MIN_ITEM_HEIGHT` (the `minItemHeightPx` floor), for every entry and every
scale configuration with strictly positive `pixelsPerMonth`. -/
theorem c9_min_height (ppm : ℚ) (hppm : 0 < ppm) (zones : List ZoomZone)
    (now : JSDate) (minDateMonth : Int) (totalHeight : ℚ) (isReversed : Bool)
    (item : ResumeItem) :
    MIN_ITEM_HEIGHT ≤ (getItemStyle ppm zones now minDateMonth totalHeight isReversed item).height := by
  unfold getItemStyle
  exact le_max_left _ _

/-- C9 witness: the floor holds at a concrete entry and scale. -/
theorem c9_min_height_witness :
    (0 : ℚ) < 16 ∧
    MIN_ITEM_HEIGHT ≤ (getItemStyle 16 [] ⟨2023 * 12 + 3, 0⟩ (2023 * 12) 100 false
      ⟨"e1", "", "", "", "", .ym 2023 1, .present, "", []⟩).height :=
  ⟨by norm_num,
    c9_min_height 16 (by norm_num) [] ⟨2023 * 12 + 3, 0⟩ (2023 * 12) 100 false
      ⟨"e1", "", "", "", "", .ym 2023 1, .present, "", []⟩⟩

/-- C2 counterexample: for the single entry `[2023-01, "present"]` evaluated
with "now" in April 2023, the computed duration is 3 months (the source's
month difference is end-exclusive), not the 4 months the claim states. -/
theorem c2_counterexample :
    getMonthsDuration ⟨2023 * 12 + 3, 0⟩ (.ym 2023 1) .present = 3 ∧ (3 : Int) ≠ 4 := by
  constructor
  · decide
  · decide

/-- C1: any two entries that the first pass of `assignColumnsWithLayout`
places in the same column have non-overlapping visual `[start, stop)`
intervals (`start` = months from `minDate`, `stop` = `start +
max(minVisualMonths, actualDuration)`). -/
theorem c1_same_column_no_overlap (now : JSDate) (hf0 : 0 ≤ now.frac)
    (hf1 : now.frac < 1) (items : List ResumeItem) (minD : Int) (mvm : ℚ) :
    (computeBounds now items minD mvm).Pairwise
      (fun a b => a.column = b.column → ¬(a.start < b.stop ∧ b.start < a.stop)) := by
  have hinv := computeBounds_inv now hf0 hf1 items minD mvm
  refine hinv.2.2.1.imp ?_
  intro a b h hcol
  rintro ⟨_, h2⟩
  exact absurd h2 (not_lt.2 (h hcol))

/-- C4: the first pass of `assignColumnsWithLayout` is exactly the
specification's packing contract: entries sorted by resolved start date
ascending with ties broken by original input position (here realised as a
lexicographic sort on position-tagged entries, proved equal to the
source's stable sort), each placed on the lowest-index column whose
watermark is at most its visual start, a new column opened at the next
index when none qualifies, and the chosen column's watermark updated to
the visual end.  Both sides are pure functions of the input list and its
order, so the layout is deterministic. -/
theorem c4_spec_refinement (now : JSDate) (items : List ResumeItem) (minD : Int)
    (mvm : ℚ) :
    specAssignColumns now items minD mvm = computeBounds now items minD mvm := by
  unfold specAssignColumns computeBounds
  rw [specSort_eq_sorted]
  have hfun : specPlaceEntry now minD mvm = assignStep now minD mvm :=
    funext fun st => funext fun x => specPlace_eq_assignStep now minD mvm st x
  rw [hfun]

/-- C3: for an overlap cluster of the produced bounds (a set of positions
closed under the overlap relation) of size `N` whose members occupy `N`
pairwise-distinct columns, the `localColumnOffset` ranks of its members are
pairwise distinct and are exactly `{0, 1, ..., N-1}`. -/
theorem c3_cluster_offsets (now : JSDate) (hf0 : 0 ≤ now.frac) (hf1 : now.frac < 1)
    (items : List ResumeItem) (minD : Int) (mvm : ℚ) (S : Finset Nat) (N : Nat)
    (hSlt : ∀ i ∈ S, i < (computeBounds now items minD mvm).length)
    (hclosed : ∀ i ∈ S, ∀ j, j < (computeBounds now items minD mvm).length →
      overlapB ((computeBounds now items minD mvm).getD j default)
        ((computeBounds now items minD mvm).getD i default) = true → j ∈ S)
    (hdistinct : ∀ i ∈ S, ∀ j ∈ S, i ≠ j →
      ((computeBounds now items minD mvm).getD i default).column
        ≠ ((computeBounds now items minD mvm).getD j default).column)
    (hcard : S.card = N) :
    (∀ i ∈ S, ∀ j ∈ S, i ≠ j →
      (layoutFor (computeBounds now items minD mvm)
          ((computeBounds now items minD mvm).getD i default)).localColumnOffset
        ≠ (layoutFor (computeBounds now items minD mvm)
            ((computeBounds now items minD mvm).getD j default)).localColumnOffset) ∧
    Finset.image (fun i => (layoutFor (computeBounds now items minD mvm)
        ((computeBounds now items minD mvm).getD i default)).localColumnOffset) S
      = Finset.image (fun k : Nat => (k : Int)) (Finset.range N) := by
  have hinv := computeBounds_inv now hf0 hf1 items minD mvm
  set bs := computeBounds now items minD mvm with hbs
  have hpos : ∀ b ∈ bs, b.start < b.stop := fun b hb => (hinv.1 b hb).2.2
  have hblocked := hinv.2.2.2
  have hclique : ∀ i ∈ S, ∀ j ∈ S,
      overlapB (bs.getD j default) (bs.getD i default) = true := by
    intro i hi j hj
    by_cases hij : j = i
    · subst hij
      have hm : bs.getD j default ∈ bs := getD_mem (hSlt j hj)
      rw [overlapB_iff]
      exact ⟨hpos _ hm, hpos _ hm⟩
    · by_contra hno
      rcases Nat.lt_trichotomy (bs.getD i default).column (bs.getD j default).column
        with hc | hc | hc
      · obtain ⟨b2, hb2m, hb2c, hb2s, hb2e⟩ :=
          hblocked (bs.getD j default) (getD_mem (hSlt j hj))
            (bs.getD i default).column hc
        have hovY : overlapB b2 (bs.getD j default) = true := by
          rw [overlapB_iff]
          exact ⟨lt_of_le_of_lt hb2s (hpos _ (getD_mem (hSlt j hj))), hb2e⟩
        obtain ⟨k, hk, hkb⟩ := mem_getD_index hb2m
        have hkS : k ∈ S := hclosed j hj k hk (by rw [hkb]; exact hovY)
        by_cases hki : k = i
        · subst hki
          rw [← hkb] at hovY
          exact hno (overlapB_symm hovY)
        · exact hdistinct k hkS i hi hki (by rw [hkb, hb2c])
      · exact hdistinct i hi j hj (fun h => hij h.symm) hc
      · obtain ⟨b2, hb2m, hb2c, hb2s, hb2e⟩ :=
          hblocked (bs.getD i default) (getD_mem (hSlt i hi))
            (bs.getD j default).column hc
        have hovX : overlapB b2 (bs.getD i default) = true := by
          rw [overlapB_iff]
          exact ⟨lt_of_le_of_lt hb2s (hpos _ (getD_mem (hSlt i hi))), hb2e⟩
        obtain ⟨k, hk, hkb⟩ := mem_getD_index hb2m
        have hkS : k ∈ S := hclosed i hi k hk (by rw [hkb]; exact hovX)
        by_cases hkj : k = j
        · subst hkj
          rw [← hkb] at hovX
          exact hno hovX
        · exact hdistinct k hkS j hj hkj (by rw [hkb, hb2c])
  set colsOf := S.image (fun j => (bs.getD j default).column) with hcols
  have hchar : ∀ i ∈ S, ∀ c : Nat,
      c ∈ ((bs.filter (fun o => overlapB o (bs.getD i default))).map
          ItemBounds.column).dedup
        ↔ c ∈ colsOf := by
    intro i hi c
    rw [List.mem_dedup, List.mem_map]
    constructor
    · rintro ⟨b, hbmem, rfl⟩
      rcases List.mem_filter.1 hbmem with ⟨hbbs, hbov⟩
      obtain ⟨k, hk, hkb⟩ := mem_getD_index hbbs
      have hkS : k ∈ S := hclosed i hi k hk (by rw [hkb]; exact hbov)
      exact Finset.mem_image.2 ⟨k, hkS, by rw [hkb]⟩
    · intro hc
      rcases Finset.mem_image.1 hc with ⟨k, hkS, rfl⟩
      exact ⟨bs.getD k default,
        List.mem_filter.2 ⟨getD_mem (hSlt k hkS), hclique i hi k hkS⟩, rfl⟩
  have hcanon : ∀ i ∈ S,
      List.insertionSort (fun a b => a ≤ b)
        ((bs.filter (fun o => overlapB o (bs.getD i default))).map
          ItemBounds.column).dedup
      = colsOf.sort (· ≤ ·) := by
    intro i hi
    haveI ht1 : IsTotal Nat (fun a b => a ≤ b) := ⟨fun a b => le_total a b⟩
    haveI ht2 : IsTrans Nat (fun a b => a ≤ b) := ⟨fun _ _ _ h1 h2 => le_trans h1 h2⟩
    apply sorted_nodup_eq_finsetSort
    · exact List.sorted_insertionSort _ _
    · exact ((List.perm_insertionSort _ _).nodup_iff).2 (List.nodup_dedup _)
    · intro x
      rw [(List.perm_insertionSort _ _).mem_iff]
      exact hchar i hi x
  have hoff : ∀ i ∈ S,
      (layoutFor bs (bs.getD i default)).localColumnOffset
        = jsIndexOf (bs.getD i default).column (colsOf.sort (· ≤ ·)) := by
    intro i hi
    show jsIndexOf (bs.getD i default).column
        (List.insertionSort (fun a b => a ≤ b)
          ((bs.filter (fun o => overlapB o (bs.getD i default))).map
            ItemBounds.column).dedup)
      = _
    rw [hcanon i hi]
  have hmemsort : ∀ i ∈ S, (bs.getD i default).column ∈ colsOf.sort (· ≤ ·) := by
    intro i hi
    rw [Finset.mem_sort]
    exact Finset.mem_image.2 ⟨i, hi, rfl⟩
  have hdist2 : ∀ i ∈ S, ∀ j ∈ S, i ≠ j →
      (layoutFor bs (bs.getD i default)).localColumnOffset
        ≠ (layoutFor bs (bs.getD j default)).localColumnOffset := by
    intro i hi j hj hij heq
    rw [hoff i hi, hoff j hj] at heq
    exact hdistinct i hi j hj hij
      (jsIndexOf_injOn (Finset.sort_nodup _ _) (hmemsort i hi) (hmemsort j hj) heq)
  have hinj : Set.InjOn (fun j => (bs.getD j default).column) ↑S := by
    intro a ha b hb hab
    by_contra hne
    exact hdistinct a (by simpa using ha) b (by simpa using hb) hne hab
  have hcardcols : colsOf.card = N := by
    rw [hcols, Finset.card_image_of_injOn hinj, hcard]
  refine ⟨hdist2, ?_⟩
  have h1 : Finset.image
      (fun i => (layoutFor bs (bs.getD i default)).localColumnOffset) S
      = Finset.image (fun c => jsIndexOf c (colsOf.sort (· ≤ ·))) colsOf := by
    rw [hcols, Finset.image_image]
    apply Finset.image_congr
    intro i hi
    exact hoff i (by simpa using hi)
  rw [h1]
  have h2 := jsIndexOf_image_nodup (Finset.sort_nodup (· ≤ ·) colsOf)
  rw [Finset.sort_toFinset] at h2
  rw [h2, Finset.length_sort, hcardcols]

/-- Scenario A's first entry `[2023-01, 2023-06]`. -/
def itemA : ResumeItem := ⟨"A", "", "", "", "", .ym 2023 1, .ym 2023 6, "", []⟩

/-- Scenario A's second entry `[2023-03, 2023-09]`. -/
def itemB : ResumeItem := ⟨"B", "", "", "", "", .ym 2023 3, .ym 2023 9, "", []⟩

/-- The concrete bounds of Scenario A's two entries under the default
scale (`minVisualMonths = 60/16 = 15/4`, "now" mid-April 2023). -/
theorem scenarioA_bounds :
    computeBounds ⟨2023 * 12 + 3, 1/2⟩ [itemA, itemB] (2023 * 12) (15/4)
      = [⟨"A", 0, 5, 0⟩, ⟨"B", 2, 8, 1⟩] := by
  have hkey : startSortKey ⟨2023 * 12 + 3, 1/2⟩ itemA
      ≤ startSortKey ⟨2023 * 12 + 3, 1/2⟩ itemB := by
    norm_num [startSortKey, timeVal, parseDate, itemA, itemB]
  have hsort : sortedItems ⟨2023 * 12 + 3, 1/2⟩ [itemA, itemB] = [itemA, itemB] := by
    unfold sortedItems
    simp only [List.insertionSort, List.orderedInsert]
    rw [if_pos hkey]
  have hvA : visualDuration ⟨2023 * 12 + 3, 1/2⟩ (15/4) itemA = 5 := by
    unfold visualDuration getMonthsDuration
    norm_num [parseDate, parseDateForBounds, itemA, max_def]
  have hvB : visualDuration ⟨2023 * 12 + 3, 1/2⟩ (15/4) itemB = 6 := by
    unfold visualDuration getMonthsDuration
    norm_num [parseDate, parseDateForBounds, itemB, max_def]
  have hsA : itemStartMonths ⟨2023 * 12 + 3, 1/2⟩ (2023 * 12) itemA = 0 := by
    norm_num [itemStartMonths, parseDate, itemA]
  have hsB : itemStartMonths ⟨2023 * 12 + 3, 1/2⟩ (2023 * 12) itemB = 2 := by
    norm_num [itemStartMonths, parseDate, itemB]
  unfold computeBounds
  rw [hsort]
  simp only [List.foldl_cons, List.foldl_nil]
  simp only [assignStep, hsA, hsB, hvA, hvB, findFirstFit]
  norm_num [itemA, itemB]

/-- C3 witness: Scenario A's two overlapping entries form a cluster of size
2 in 2 distinct columns; their offsets are exactly `{0, 1}`. -/
theorem c3_cluster_offsets_witness :
    (∀ i ∈ ({0, 1} : Finset Nat), ∀ j ∈ ({0, 1} : Finset Nat), i ≠ j →
      ((computeBounds ⟨2023 * 12 + 3, 1/2⟩ [itemA, itemB] (2023 * 12) (15/4)).getD i
          default).column
        ≠ ((computeBounds ⟨2023 * 12 + 3, 1/2⟩ [itemA, itemB] (2023 * 12) (15/4)).getD j
            default).column) ∧
    Finset.image (fun i => (layoutFor
        (computeBounds ⟨2023 * 12 + 3, 1/2⟩ [itemA, itemB] (2023 * 12) (15/4))
        ((computeBounds ⟨2023 * 12 + 3, 1/2⟩ [itemA, itemB] (2023 * 12) (15/4)).getD i
          default)).localColumnOffset) ({0, 1} : Finset Nat)
      = Finset.image (fun k : Nat => (k : Int)) (Finset.range 2) :=
  ⟨by rw [scenarioA_bounds]; decide,
    (c3_cluster_offsets ⟨2023 * 12 + 3, 1/2⟩ (by norm_num) (by norm_num)
      [itemA, itemB] (2023 * 12) (15/4) {0, 1} 2
      (by rw [scenarioA_bounds]; decide)
      (by rw [scenarioA_bounds]; decide)
      (by rw [scenarioA_bounds]; decide)
      (by decide)).2⟩

/-- C1 witness: the packing invariant at the concrete two-entry Scenario A
with "now" mid-April 2023 and the default scale. -/
theorem c1_same_column_no_overlap_witness :
    (0 : ℚ) ≤ (1/2 : ℚ) ∧ (1/2 : ℚ) < 1 ∧
    (computeBounds ⟨2023 * 12 + 3, 1/2⟩ [itemA, itemB] (2023 * 12) (15/4)).Pairwise
      (fun a b => a.column = b.column → ¬(a.start < b.stop ∧ b.start < a.stop)) :=
  ⟨by norm_num, by norm_num,
    c1_same_column_no_overlap ⟨2023 * 12 + 3, 1/2⟩ (by norm_num) (by norm_num)
      [itemA, itemB] (2023 * 12) (15/4)⟩

/-- C10: every layout record produced by `assignColumnsWithLayout` has a
local column count of at least one and a local column offset inside
`[0, localColumnCount)`, because every entry's visual interval has positive
length and therefore overlaps itself. -/
theorem c10_local_layout_bounds (now : JSDate) (items : List ResumeItem) (minD : Int)
    (mvm : ℚ) (hids : (items.map ResumeItem.id).Nodup) :
    ∀ p ∈ assignColumnsWithLayout now items minD mvm,
      1 ≤ p.2.localColumnCount ∧ 0 ≤ p.2.localColumnOffset ∧
        p.2.localColumnOffset < (p.2.localColumnCount : Int) := by
  intro p hp
  unfold assignColumnsWithLayout at hp
  rcases List.mem_map.1 hp with ⟨it, hit, rfl⟩
  have hss : it.start < it.stop :=
    computeBounds_start_lt_stop now minD mvm (sortedItems now items) ([], [])
      (fun b hb => absurd hb (List.not_mem_nil b)) it hit
  set bounds := computeBounds now items minD mvm with hbounds
  have hov : overlapB it it = true := by
    unfold overlapB
    simp only [Bool.and_eq_true, decide_eq_true_eq]
    exact ⟨hss, hss⟩
  have hitov : it ∈ bounds.filter (fun o => overlapB o it) :=
    List.mem_filter.2 ⟨hit, hov⟩
  have hcolmem : it.column ∈ ((bounds.filter (fun o => overlapB o it)).map
      ItemBounds.column).dedup :=
    List.mem_dedup.2 (List.mem_map_of_mem ItemBounds.column hitov)
  have hcount : (layoutFor bounds it).localColumnCount
      = ((bounds.filter (fun o => overlapB o it)).map ItemBounds.column).dedup.length := rfl
  have hoffdef : (layoutFor bounds it).localColumnOffset
      = jsIndexOf it.column (List.insertionSort (fun a b => a ≤ b)
          ((bounds.filter (fun o => overlapB o it)).map ItemBounds.column).dedup) := rfl
  have hsortmem : it.column ∈ List.insertionSort (fun a b => a ≤ b)
      ((bounds.filter (fun o => overlapB o it)).map ItemBounds.column).dedup :=
    (List.perm_insertionSort _ _).mem_iff.2 hcolmem
  obtain ⟨h0, hlt⟩ := jsIndexOf_mem_range hsortmem
  have hlen : (List.insertionSort (fun a b => a ≤ b)
      ((bounds.filter (fun o => overlapB o it)).map ItemBounds.column).dedup).length
      = ((bounds.filter (fun o => overlapB o it)).map ItemBounds.column).dedup.length :=
    (List.perm_insertionSort _ _).length_eq
  refine ⟨?_, ?_, ?_⟩
  · rw [hcount]
    exact List.length_pos.2 (List.ne_nil_of_mem hcolmem)
  · rw [hoffdef]
    exact h0
  · rw [hoffdef, hcount]
    rw [hlen] at hlt
    exact hlt

/-- C10 witness: the bounds at the concrete Scenario A input (distinct ids
"A" and "B"). -/
theorem c10_local_layout_bounds_witness :
    ([itemA, itemB].map ResumeItem.id).Nodup ∧
    ∀ p ∈ assignColumnsWithLayout ⟨2023 * 12 + 3, 1/2⟩ [itemA, itemB] (2023 * 12) (15/4),
      1 ≤ p.2.localColumnCount ∧ 0 ≤ p.2.localColumnOffset ∧
        p.2.localColumnOffset < (p.2.localColumnCount : Int) :=
  ⟨by decide,
    c10_local_layout_bounds ⟨2023 * 12 + 3, 1/2⟩ [itemA, itemB] (2023 * 12) (15/4)
      (by decide)⟩

/-- Scenario B's single entry `[2023-01, "present"]`. -/
def scenarioBItem : ResumeItem := ⟨"e1", "", "", "", "", .ym 2023 1, .present, "", []⟩

/-- C2 amended: for the single entry `[2023-01, "present"]` evaluated with
"now" anywhere in April 2023, the visual duration is 3 months (the
end-exclusive month difference January to April), the entry is assigned
column 0, and its height is `3 * pixelsPerMonth` clamped below by
`MIN_ITEM_HEIGHT`. -/
theorem c2_amended (ppm f : ℚ) (hf0 : 0 ≤ f) (hf1 : f < 1) :
    getMonthsDuration ⟨2023 * 12 + 3, f⟩ scenarioBItem.startDate scenarioBItem.endDate = 3 ∧
    (timelineBounds ⟨2023 * 12 + 3, f⟩ [scenarioBItem]).minDate.month = 2023 * 12 ∧
    assignColumnsWithLayout ⟨2023 * 12 + 3, f⟩ [scenarioBItem]
        (timelineBounds ⟨2023 * 12 + 3, f⟩ [scenarioBItem]).minDate.month
        (minVisualMonthsOf ppm)
      = [("e1", ⟨0, 1, 0⟩)] ∧
    (getItemStyle ppm [] ⟨2023 * 12 + 3, f⟩
        (timelineBounds ⟨2023 * 12 + 3, f⟩ [scenarioBItem]).minDate.month 0 false
        scenarioBItem).height = max MIN_ITEM_HEIGHT (3 * ppm) := by
  have h3 : getMonthsDuration ⟨2023 * 12 + 3, f⟩ scenarioBItem.startDate
      scenarioBItem.endDate = 3 := rfl
  have hmin : (timelineBounds ⟨2023 * 12 + 3, f⟩ [scenarioBItem]).minDate.month
      = 2023 * 12 := by
    simp only [timelineBounds, scenarioBItem, List.isEmpty_cons, Bool.false_eq_true, if_false,
      List.map_cons, List.map_nil, List.cons_append, List.nil_append, jsMinList, List.foldl,
      dateFromTime, timeVal, parseDate, parseDateForBounds]
    rw [min_eq_left (by push_cast; linarith)]
    push_cast
    norm_num
  refine ⟨h3, hmin, ?_, ?_⟩
  · rw [hmin]
    apply assign_singleton
    unfold visualDuration
    rw [h3]
    have h03 : (0 : ℚ) < ((3 : Int) : ℚ) := by norm_num
    exact lt_of_lt_of_le h03 (le_max_right _ _)
  · rw [hmin]
    have hsc : ∀ i : Int, getScaleForMonth ppm [] (2023 * 12) i = ppm := fun i => rfl
    simp only [getItemStyle, h3, hsc]
    congr 1
    have hr : List.range (Int.toNat 3) = [0, 1, 2] := rfl
    rw [hr]
    simp
    ring

/-- C2 witness for the amended claim, at `pixelsPerMonth = 16` and "now"
mid-April 2023. -/
theorem c2_amended_witness :
    (0 : ℚ) ≤ 1/2 ∧ (1/2 : ℚ) < 1 ∧
    assignColumnsWithLayout ⟨2023 * 12 + 3, 1/2⟩ [scenarioBItem]
        (timelineBounds ⟨2023 * 12 + 3, 1/2⟩ [scenarioBItem]).minDate.month
        (minVisualMonthsOf 16)
      = [("e1", ⟨0, 1, 0⟩)] :=
  ⟨by norm_num, by norm_num, (c2_amended 16 (1/2) (by norm_num) (by norm_num)).2.2.1⟩

/-- C5 evidence: a malformed date string is parsed to an Invalid Date whose
numeric observations are `NaN`; the engine has no guard, so the `Timeline`
bounds memo propagates `NaN` into `minDate` and `totalMonths`. -/
theorem c5_nan_reaches_bounds :
    jsTotalMonths ⟨2023 * 12 + 3, 0⟩ [⟨"a", .malformed, .ym 2023 5⟩] = .nan ∧
    jsMinDateMonth ⟨2023 * 12 + 3, 0⟩ [⟨"a", .malformed, .ym 2023 5⟩] = .nan := by
  constructor <;> rfl

/-- C8: an entry whose end date is the sentinel `"future"` has its bounds
resolution at the current moment plus six months, is reported as future
(`isFutureDate`), and the timeline's `maxDate` reaches that extended
bound. -/
theorem c8_future_extends (now : JSDate) (hf : 0 ≤ now.frac) (items : List ResumeItem)
    (e : ResumeItem) (he : e ∈ items) (hend : e.endDate = .future) :
    parseDateForBounds now e.endDate = ⟨now.month + 6, now.frac⟩ ∧
    isFutureDate now e.endDate = true ∧
    now.month + 6 ≤ (timelineBounds now items).maxDate.month := by
  refine ⟨by rw [hend]; rfl, by rw [hend]; rfl, ?_⟩
  have hne : items.isEmpty = false := by
    cases items with
    | nil => cases he
    | cons a l => rfl
  unfold timelineBounds
  rw [hne]
  simp only [Bool.false_eq_true, if_false, dateFromTime]
  have hmem : timeVal (parseDateForBounds now e.endDate) ∈
      (items.map (fun it => timeVal (parseDate now it.startDate)) ++
        items.map (fun it => timeVal (parseDateForBounds now it.endDate))) :=
    List.mem_append_right _ (List.mem_map_of_mem _ he)
  have hle : ((now.month + 6 : Int) : ℚ) ≤ jsMaxList
      (items.map (fun it => timeVal (parseDate now it.startDate)) ++
        items.map (fun it => timeVal (parseDateForBounds now it.endDate))) := by
    refine le_trans ?_ (le_jsMaxList hmem)
    rw [hend]
    unfold parseDateForBounds timeVal
    push_cast
    linarith
  exact Int.le_floor.2 hle

/-- C8 witness: the theorem applied to a single concrete entry ending in
`"future"` with "now" in April 2023. -/
theorem c8_future_extends_witness :
    (0 : ℚ) ≤ (JSDate.mk (2023 * 12 + 3) (1/2)).frac ∧
    2023 * 12 + 3 + 6 ≤ (timelineBounds ⟨2023 * 12 + 3, 1/2⟩
      [⟨"f1", "", "", "", "", .ym 2023 1, .future, "", []⟩]).maxDate.month :=
  ⟨by norm_num,
    (c8_future_extends ⟨2023 * 12 + 3, 1/2⟩ (by norm_num)
      [⟨"f1", "", "", "", "", .ym 2023 1, .future, "", []⟩]
      ⟨"f1", "", "", "", "", .ym 2023 1, .future, "", []⟩
      (List.mem_singleton.2 rfl) rfl).2.2⟩
